import Mathlib

/-!
Verification development for the onecrawl fetch orchestration engine
(src/adapters/fetch-pool/fetch-pool.adapter.ts, origin-queue.ts, and the
LruCache of src/adapters/undici/scraper.adapter.ts).

The TypeScript code is shallowly embedded: the Map objects become
association lists in insertion order (JS Map iteration order is insertion
order, which the LRU cache relies on), the event-loop interleaving of
async tasks becomes explicit event sequences over a step function, and
machine timestamps become natural numbers of milliseconds.
-/

namespace OneCrawl

/-! ## Association-list maps

JS `Map` keeps insertion order; `set` on an existing key keeps the old
position, but the cache code always does delete-then-insert, so we only
need delete (of the unique occurrence) and append. -/

/-- First value bound to a key, like `Map.get`. -/
def mapGet {α : Type} (m : List (String × α)) (k : String) : Option α :=
  match m with
  | [] => none
  | (k₂, v) :: rest => if k₂ = k then some v else mapGet rest k

/-- Remove the first binding of a key, like `Map.delete`. -/
def eraseKey {α : Type} (m : List (String × α)) (k : String) : List (String × α) :=
  match m with
  | [] => []
  | (k₂, v) :: rest => if k₂ = k then rest else (k₂, v) :: eraseKey rest k

/-- The `Map.set` pattern used throughout: delete then append at the end. -/
def mapSet {α : Type} (m : List (String × α)) (k : String) (v : α) : List (String × α) :=
  eraseKey m k ++ [(k, v)]

theorem mapGet_nil {α : Type} (k : String) : mapGet ([] : List (String × α)) k = none := rfl

theorem mapGet_append_of_none {α : Type} {m : List (String × α)} {k : String}
    (h : mapGet m k = none) (m₂ : List (String × α)) :
    mapGet (m ++ m₂) k = mapGet m₂ k := by
  induction m with
  | nil => rfl
  | cons p rest ih =>
    obtain ⟨k₂, v⟩ := p
    by_cases hk : k₂ = k
    · simp [mapGet, hk] at h
    · simp only [mapGet, hk, if_false, List.cons_append] at h ⊢
      exact ih h

theorem mapGet_eraseKey_self {α : Type} (m : List (String × α)) (k : String)
    (hnd : (m.map Prod.fst).Nodup) :
    mapGet (eraseKey m k) k = none := by
  induction m with
  | nil => rfl
  | cons p rest ih =>
    obtain ⟨k₂, v⟩ := p
    simp only [List.map_cons, List.nodup_cons] at hnd
    by_cases hk : k₂ = k
    · subst hk
      simp only [eraseKey, if_pos rfl]
      -- k₂ no longer occurs in rest, so lookup misses
      clear ih
      induction rest with
      | nil => rfl
      | cons q rs ih₂ =>
        obtain ⟨k₃, w⟩ := q
        simp only [List.map_cons, List.mem_cons, not_or] at hnd
        have hne : k₃ ≠ k₂ := fun h => hnd.1.1 h.symm
        simp only [mapGet, hne, if_false]
        exact ih₂ ⟨hnd.1.2, (List.nodup_cons.mp hnd.2).2⟩
    · simp only [eraseKey, hk, if_false, mapGet]
      exact ih hnd.2

theorem mapGet_eraseKey_other {α : Type} (m : List (String × α)) (k k₂ : String)
    (h : k₂ ≠ k) : mapGet (eraseKey m k) k₂ = mapGet m k₂ := by
  induction m with
  | nil => rfl
  | cons p rest ih =>
    obtain ⟨k₃, v⟩ := p
    by_cases hk : k₃ = k
    · subst hk
      simp only [eraseKey, if_pos rfl, mapGet]
      have : ¬ k₃ = k₂ := fun hc => h hc.symm
      simp [this]
    · simp only [eraseKey, hk, if_false, mapGet]
      by_cases hk2 : k₃ = k₂
      · simp [hk2]
      · simp only [hk2, if_false]
        exact ih

theorem mapGet_mapSet_self {α : Type} (m : List (String × α)) (k : String) (v : α)
    (hnd : (m.map Prod.fst).Nodup) :
    mapGet (mapSet m k v) k = some v := by
  unfold mapSet
  rw [mapGet_append_of_none (mapGet_eraseKey_self m k hnd)]
  simp [mapGet]

theorem mapGet_append {α : Type} (m₁ m₂ : List (String × α)) (k : String) :
    mapGet (m₁ ++ m₂) k =
      match mapGet m₁ k with
      | some v => some v
      | none => mapGet m₂ k := by
  induction m₁ with
  | nil => rfl
  | cons p rest ih =>
    obtain ⟨k₂, v⟩ := p
    by_cases hk : k₂ = k
    · simp [mapGet, hk]
    · simp only [List.cons_append, mapGet, hk, if_false]
      exact ih

theorem mapGet_mapSet_other {α : Type} (m : List (String × α)) (k k₂ : String) (v : α)
    (h : k₂ ≠ k) : mapGet (mapSet m k v) k₂ = mapGet m k₂ := by
  unfold mapSet
  rw [mapGet_append, mapGet_eraseKey_other m k k₂ h]
  have hne : ¬ k = k₂ := fun hc => h hc.symm
  cases hv : mapGet m k₂ with
  | none => simp [mapGet, hne]
  | some w => simp

/-! ## Freshness cache

Embedding of class `LruCache<T>` (src/adapters/undici/scraper.adapter.ts).
The backing `Map` is an association list in insertion order; a fresh
`lookup` hit deletes and re-appends the entry (the bump to most recent). -/

/-- Embeds interface `CacheEntry<T>`: payload, `timestamp` of insertion,
optional validators and optional per-entry TTL override. -/
structure CacheEntry (T : Type) where
  data : T
  timestamp : Nat
  etag : Option String := none
  lastModified : Option String := none
  ttlOverride : Option Nat := none
deriving Repr, DecidableEq

/-- Result of `LruCache.lookup` plus the updated entry list (the source
mutates `this.entries` in place; we return the new list). -/
structure CacheLookup (T : Type) where
  fresh : Option (CacheEntry T)
  stale : Option (CacheEntry T)
  entries : List (String × CacheEntry T)
deriving Repr, DecidableEq

/-- Embeds `LruCache.lookup`: absent key gives neither; an entry with
`now - timestamp > (ttlOverride ?? ttl)` is returned as `stale` without
reordering; otherwise it is returned as `fresh` and bumped to the end. -/
def lruLookup {T : Type} (ttl now : Nat) (entries : List (String × CacheEntry T))
    (key : String) : CacheLookup T :=
  match mapGet entries key with
  | none => ⟨none, none, entries⟩
  | some e =>
    let effectiveTtl := e.ttlOverride.getD ttl
    if now - e.timestamp > effectiveTtl then ⟨none, some e, entries⟩
    else ⟨some e, none, eraseKey entries key ++ [(key, e)]⟩

/-- Embeds `LruCache.set`: delete-then-insert; when the size after the
delete is at or above `ceil(maxSize * 0.9)`, oldest entries are dropped
from the front until at most `floor(maxSize * 0.7)` remain. -/
def lruSet {T : Type} (maxSize : Nat) (entries : List (String × CacheEntry T))
    (key : String) (e : CacheEntry T) : List (String × CacheEntry T) :=
  let afterDelete := eraseKey entries key
  let afterEvict :=
    if afterDelete.length ≥ (9 * maxSize + 9) / 10 then
      afterDelete.drop (afterDelete.length - 7 * maxSize / 10)
    else afterDelete
  afterEvict ++ [(key, e)]

/-- C4, counterexample: the claim says fresh iff `now - storedAt < ttl`
(strict). At `now - storedAt = ttl` exactly (ttl 5, stored at 0, now 5)
the code still returns the entry as fresh, because its expiry test is
`now - timestamp > effectiveTtl`. -/
theorem lruLookup_strict_boundary_cex :
    (lruLookup 5 5 [("k", ({ data := 0, timestamp := 0 } : CacheEntry Nat))] "k").fresh
        = some { data := 0, timestamp := 0 }
      ∧ ¬ ((5 : Nat) - (0 : Nat) < 5) := by
  constructor
  · rfl
  · decide

/-- C4, amended: an entry found for the key is returned in `fresh` (and
bumped) exactly when `now - storedAt ≤ (ttlOverride ?? defaultTTL)` (the
override fully replaces the default); otherwise it is returned only in
`stale`, never as a hit. -/
theorem lruLookup_fresh_iff {T : Type} (ttl now : Nat)
    (entries : List (String × CacheEntry T)) (key : String) (e : CacheEntry T)
    (hfind : mapGet entries key = some e) :
    ((lruLookup ttl now entries key).fresh = some e
        ∧ (lruLookup ttl now entries key).stale = none
      ↔ now - e.timestamp ≤ e.ttlOverride.getD ttl)
    ∧ ((lruLookup ttl now entries key).fresh = none
        ∧ (lruLookup ttl now entries key).stale = some e
      ↔ e.ttlOverride.getD ttl < now - e.timestamp) := by
  have hres : lruLookup ttl now entries key =
      if now - e.timestamp > e.ttlOverride.getD ttl then ⟨none, some e, entries⟩
      else ⟨some e, none, eraseKey entries key ++ [(key, e)]⟩ := by
    simp [lruLookup, hfind]
  by_cases h : now - e.timestamp > e.ttlOverride.getD ttl
  · rw [hres, if_pos h]
    refine ⟨⟨fun hc => absurd hc.1 (by simp), fun hle => absurd hle (by omega)⟩,
      ⟨fun _ => by omega, fun _ => ⟨rfl, rfl⟩⟩⟩
  · rw [hres, if_neg h]
    refine ⟨⟨fun _ => by omega, fun _ => ⟨rfl, rfl⟩⟩,
      ⟨fun hc => absurd hc.1 (by simp), fun hlt => absurd hlt h⟩⟩

/-- Witness for the amended C4 theorem at a concrete entry list. -/
theorem lruLookup_fresh_iff_witness :
    ((lruLookup 5 3 [("k", ({ data := 0, timestamp := 0 } : CacheEntry Nat))] "k").fresh
        = some { data := 0, timestamp := 0 }
      ∧ (lruLookup 5 3 [("k", ({ data := 0, timestamp := 0 } : CacheEntry Nat))] "k").stale = none
      ↔ 3 - 0 ≤ (5 : Nat))
    ∧ ((lruLookup 5 3 [("k", ({ data := 0, timestamp := 0 } : CacheEntry Nat))] "k").fresh = none
      ∧ (lruLookup 5 3 [("k", ({ data := 0, timestamp := 0 } : CacheEntry Nat))] "k").stale
          = some { data := 0, timestamp := 0 }
      ↔ (5 : Nat) < 3 - 0) :=
  lruLookup_fresh_iff 5 3 [("k", { data := 0, timestamp := 0 })] "k"
    { data := 0, timestamp := 0 } rfl

/-! ## Origin concurrency limiter, settlement-atomic view

Embedding of class `OriginQueue` (src/adapters/fetch-pool/origin-queue.ts).
Tasks are identified by numeric ids. The source keeps only a counter
`active`; here `active` is the list of ids of the currently running tasks
(its length is the counter), so that a completion event can say which
running task settled. `settled` observes, in settlement order, each task
id together with the outcome flag delivered to that task's own enqueue
promise (true for `resolve`, false for `reject`).

`qStep` treats a settlement as one step, fusing the delivery, the
decrement of `active` and the follow-up `dequeue`. That is exact for the
`run` path, whose `finally` runs both in one synchronous block, but
coarse for the settlement of a promoted task, where the source defers
the `dequeue` to a microtask. The settlement-local drain behaviour
studied in this section (failure isolation) is unaffected by the fusion;
the admission bound and the run order, which the deferred interleaving
does affect, are treated over the finer microtask-level model further
below. -/

/-- Embeds interface `OriginState` (pending FIFO plus running tasks). -/
structure OriginState where
  pending : List Nat
  active : List Nat
deriving Repr, DecidableEq

/-- The `origins` map of `OriginQueue` plus the settlement observation. -/
structure QState where
  origins : List (String × OriginState)
  settled : List (Nat × Bool)
deriving Repr, DecidableEq

/-- Environment events: a task is enqueued for an origin, or a currently
running task settles with success or failure. -/
inductive QEvent where
  | enqueue (origin : String) (t : Nat)
  | complete (origin : String) (t : Nat) (ok : Bool)
deriving Repr, DecidableEq

/-- The settling task leaves the active list (the source decrements its
counter). -/
def removeFirst : List Nat → Nat → List Nat
  | [], _ => []
  | x :: xs, t => if x = t then xs else x :: removeFirst xs t

theorem length_removeFirst_of_mem {l : List Nat} {t : Nat} (h : t ∈ l) :
    (removeFirst l t).length + 1 = l.length := by
  induction l with
  | nil => cases h
  | cons x xs ih =>
    by_cases hx : x = t
    · simp [removeFirst, hx]
    · have hmem : t ∈ xs := by
        cases List.mem_cons.mp h with
        | inl heq => exact absurd heq.symm hx
        | inr hm => exact hm
      simp only [removeFirst, hx, if_false, List.length_cons]
      rw [← ih hmem]

/-- One step of the queue. `enqueue` follows `OriginQueue.enqueue`: run
immediately while the active count is below `maxConcurrency`, otherwise
append to that origin's FIFO `pending`. `complete` follows the `finally`
of `run` together with `dequeue`: the settling task leaves `active`, its
outcome is delivered, then the pending head (if any) is promoted; an
origin left with no pending and no active tasks is deleted from the map.
A `complete` event naming a task that is not running is ignored. -/
def qStep (maxConcurrency : Nat) (s : QState) : QEvent → QState
  | .enqueue o t =>
    let st := (mapGet s.origins o).getD ⟨[], []⟩
    if st.active.length < maxConcurrency then
      { s with origins := mapSet s.origins o ⟨st.pending, st.active ++ [t]⟩ }
    else
      { s with origins := mapSet s.origins o ⟨st.pending ++ [t], st.active⟩ }
  | .complete o t ok =>
    match mapGet s.origins o with
    | none => s
    | some st =>
      if t ∈ st.active then
        let act := removeFirst st.active t
        let stl := s.settled ++ [(t, ok)]
        match st.pending with
        | [] =>
          if act.isEmpty then ⟨eraseKey s.origins o, stl⟩
          else ⟨mapSet s.origins o ⟨[], act⟩, stl⟩
        | h₂ :: rest => ⟨mapSet s.origins o ⟨rest, act ++ [h₂]⟩, stl⟩
      else s

/-! Key uniqueness of the origins map, needed to reason about `mapSet`. -/

theorem keys_eraseKey_sublist {α : Type} (m : List (String × α)) (k : String) :
    ((eraseKey m k).map Prod.fst).Sublist (m.map Prod.fst) := by
  induction m with
  | nil => exact List.Sublist.refl _
  | cons p rest ih =>
    obtain ⟨k₂, v⟩ := p
    by_cases hk : k₂ = k
    · simp only [eraseKey, hk, if_pos rfl, List.map_cons]
      exact List.sublist_cons_self _ _
    · simp only [eraseKey, hk, if_false, List.map_cons]
      exact List.Sublist.cons₂ _ ih

theorem not_mem_keys_eraseKey {α : Type} {m : List (String × α)} {k : String}
    (hnd : (m.map Prod.fst).Nodup) : k ∉ (eraseKey m k).map Prod.fst := by
  induction m with
  | nil => simp [eraseKey]
  | cons p rest ih =>
    obtain ⟨k₂, v⟩ := p
    simp only [List.map_cons, List.nodup_cons] at hnd
    by_cases hk : k₂ = k
    · subst hk
      simpa [eraseKey] using hnd.1
    · simp only [eraseKey, hk, if_false, List.map_cons, List.mem_cons, not_or]
      exact ⟨fun hc => hk hc.symm, ih hnd.2⟩

theorem keys_mapSet_nodup {α : Type} {m : List (String × α)} {k : String} (v : α)
    (hnd : (m.map Prod.fst).Nodup) : ((mapSet m k v).map Prod.fst).Nodup := by
  unfold mapSet
  rw [List.map_append]
  apply List.Nodup.append
  · exact hnd.sublist (keys_eraseKey_sublist m k)
  · exact List.nodup_singleton k
  · intro a ha hb
    simp only [List.map_cons, List.map_nil, List.mem_singleton] at hb
    subst hb
    exact not_mem_keys_eraseKey hnd ha

/-- The origins map binds each origin key at most once (a JS `Map`). -/
def KeysNodup (s : QState) : Prop := (s.origins.map Prod.fst).Nodup

/-- C9: when a running task fails, its error is delivered as that task's
own outcome (the appended settlement carries its id with the rejection
flag), and the queue still drains exactly as on success: the resulting
origin map is identical to the one a successful completion would produce,
and in particular the next pending task is promoted with the active count
net unchanged (decrement for the failer, increment for the promotee), so
a failing task never blocks later tasks. -/
theorem originQueue_failure_isolated (maxConcurrency : Nat) (s : QState)
    (o : String) (t : Nat) (st : OriginState)
    (hnd : KeysNodup s)
    (hfind : mapGet s.origins o = some st) (hmem : t ∈ st.active) :
    (qStep maxConcurrency s (.complete o t false)).settled = s.settled ++ [(t, false)]
    ∧ (qStep maxConcurrency s (.complete o t false)).origins
        = (qStep maxConcurrency s (.complete o t true)).origins
    ∧ (∀ h₂ rest, st.pending = h₂ :: rest →
        mapGet (qStep maxConcurrency s (.complete o t false)).origins o
          = some ⟨rest, removeFirst st.active t ++ [h₂]⟩
        ∧ (removeFirst st.active t ++ [h₂]).length = st.active.length) := by
  refine ⟨?_, ?_, ?_⟩
  · cases hpend : st.pending with
    | nil =>
      by_cases hemp : (removeFirst st.active t).isEmpty
      · simp [qStep, hfind, hmem, hpend, hemp]
      · simp only [qStep, hfind, hmem, if_pos, hpend]
        rw [if_neg hemp]
    | cons h₂ rest => simp [qStep, hfind, hmem, hpend]
  · cases hpend : st.pending with
    | nil =>
      by_cases hemp : (removeFirst st.active t).isEmpty
      · simp [qStep, hfind, hmem, hpend, hemp]
      · simp only [qStep, hfind, hmem, if_pos, hpend]
        rw [if_neg hemp, if_neg hemp]
    | cons h₂ rest => simp [qStep, hfind, hmem, hpend]
  · intro h₂ rest hpend
    have hq : qStep maxConcurrency s (.complete o t false)
        = ⟨mapSet s.origins o ⟨rest, removeFirst st.active t ++ [h₂]⟩,
            s.settled ++ [(t, false)]⟩ := by
      simp [qStep, hfind, hmem, hpend]
    rw [hq]
    refine ⟨mapGet_mapSet_self _ _ _ hnd, ?_⟩
    have := length_removeFirst_of_mem hmem
    simp only [List.length_append, List.length_cons, List.length_nil]
    omega

/-- Witness for C9: limit 2, task 1 fails while task 7 waits. -/
theorem originQueue_failure_isolated_witness :
    (qStep 2 ⟨[("a", ⟨[7], [1, 5]⟩)], []⟩ (.complete ("a") 1 false)).settled = [] ++ [(1, false)]
    ∧ (qStep 2 ⟨[("a", ⟨[7], [1, 5]⟩)], []⟩ (.complete ("a") 1 false)).origins
        = (qStep 2 ⟨[("a", ⟨[7], [1, 5]⟩)], []⟩ (.complete ("a") 1 true)).origins
    ∧ (∀ h₂ rest, ([7] : List Nat) = h₂ :: rest →
        mapGet (qStep 2 ⟨[("a", ⟨[7], [1, 5]⟩)], []⟩ (.complete ("a") 1 false)).origins ("a")
          = some ⟨rest, removeFirst [1, 5] 1 ++ [h₂]⟩
        ∧ (removeFirst [1, 5] 1 ++ [h₂]).length = ([1, 5] : List Nat).length) :=
  originQueue_failure_isolated 2 ⟨[("a", ⟨[7], [1, 5]⟩)], []⟩ "a" 1 ⟨[7], [1, 5]⟩
    (by unfold KeysNodup; decide) (by decide) (by decide)

/-! ## Origin concurrency limiter, microtask-level semantics

Only the `run` path of origin-queue.ts settles atomically: its `finally`
executes `state.active--` and `this.dequeue(...)` in one synchronous
block, before the enqueue promise resolves to the caller. A task that
was promoted by `dequeue` settles differently: its handler chain first
delivers the outcome (`next.resolve` or `next.reject`), then decrements
`active`, and only schedules the follow-up `dequeue` through
`queueMicrotask`. Caller continuations run between that decrement and
the deferred `dequeue`, and `dequeue` promotes the pending head without
re-checking the limit. The model below exposes this split: each running
task carries a flag telling which settlement path applies to it, and
`deferred` counts `dequeue` microtasks scheduled but not yet run.

One simplification: a deferred `dequeue` of an origin whose state has
been deleted is a no-op here; in the source it fires against the
detached state object, which is observationally the same unless the
origin was deleted and re-created while the microtask was pending, an
aliasing corner none of the traces below reaches. -/

/-- Per-origin state at microtask granularity: the FIFO `pending`, the
running tasks each tagged `true` when promoted by `dequeue` and `false`
when admitted directly by `enqueue`, and the number of `dequeue`
microtasks scheduled by settlements but not yet executed. -/
structure OriginStateM where
  pending : List Nat
  active : List (Nat × Bool)
  deferred : Nat
deriving Repr, DecidableEq

/-- Queue state: the `origins` map plus the settlement observation. -/
structure QStateM where
  origins : List (String × OriginStateM)
  settled : List (Nat × Bool)
deriving Repr, DecidableEq

/-- A fresh `OriginQueue`. -/
def mInit : QStateM := ⟨[], []⟩

/-- Microtask-level events: an enqueue; the settlement of a directly
admitted task (synchronous `finally`: decrement plus immediate
`dequeue`); the settlement of a promoted task (decrement plus a
deferred `dequeue`); and the later execution of one deferred `dequeue`
microtask. -/
inductive MEvent where
  | enqueue (origin : String) (t : Nat)
  | completeRun (origin : String) (t : Nat) (ok : Bool)
  | completeDeq (origin : String) (t : Nat) (ok : Bool)
  | runDeferred (origin : String)
deriving Repr, DecidableEq

def MEvent.isEnqueue : MEvent → Bool
  | .enqueue _ _ => true
  | _ => false

/-- The settling tagged task leaves the active list (the source merely
decrements its counter). -/
def removePair : List (Nat × Bool) → Nat × Bool → List (Nat × Bool)
  | [], _ => []
  | x :: xs, p => if x = p then xs else x :: removePair xs p

theorem length_removePair_of_mem {l : List (Nat × Bool)} {p : Nat × Bool}
    (h : p ∈ l) : (removePair l p).length + 1 = l.length := by
  induction l with
  | nil => cases h
  | cons x xs ih =>
    by_cases hx : x = p
    · simp [removePair, hx]
    · have hmem : p ∈ xs := by
        cases List.mem_cons.mp h with
        | inl heq => exact absurd heq.symm hx
        | inr hm => exact hm
      simp only [removePair, hx, if_false, List.length_cons]
      rw [← ih hmem]

/-- The body of `dequeue(origin, state)`: with nothing pending, an idle
origin is deleted from the map; otherwise the pending head is promoted
unconditionally — `state.active++` with no re-check against the limit.
`st` must be the state currently mapped for `o` in `origins`. -/
def dequeueStep (origins : List (String × OriginStateM)) (o : String)
    (st : OriginStateM) : List (String × OriginStateM) :=
  match st.pending with
  | [] => if st.active.isEmpty then eraseKey origins o else origins
  | h₂ :: rest =>
    mapSet origins o { st with pending := rest, active := st.active ++ [(h₂, true)] }

/-- One microtask-level step. `enqueue` is synchronous in the source and
is one step. `completeRun` is the `finally` of `run`: remove the task,
deliver its outcome, run `dequeue` at once. `completeDeq` is the
settlement handler chain of a promoted task: deliver the outcome,
remove the task, and schedule a `dequeue` microtask. `runDeferred`
executes one scheduled microtask. An event naming a task that is not
running with the matching tag, or a `runDeferred` with nothing
scheduled, is ignored. -/
def mStep (maxConcurrency : Nat) (s : QStateM) : MEvent → QStateM
  | .enqueue o t =>
    let st := (mapGet s.origins o).getD ⟨[], [], 0⟩
    if st.active.length < maxConcurrency then
      { s with origins :=
          mapSet s.origins o { st with active := st.active ++ [(t, false)] } }
    else
      { s with origins :=
          mapSet s.origins o { st with pending := st.pending ++ [t] } }
  | .completeRun o t ok =>
    match mapGet s.origins o with
    | none => s
    | some st =>
      if (t, false) ∈ st.active then
        let st₂ := { st with active := removePair st.active (t, false) }
        { origins := dequeueStep (mapSet s.origins o st₂) o st₂,
          settled := s.settled ++ [(t, ok)] }
      else s
  | .completeDeq o t ok =>
    match mapGet s.origins o with
    | none => s
    | some st =>
      if (t, true) ∈ st.active then
        { origins := mapSet s.origins o
            { st with active := removePair st.active (t, true),
                      deferred := st.deferred + 1 },
          settled := s.settled ++ [(t, ok)] }
      else s
  | .runDeferred o =>
    match mapGet s.origins o with
    | none => s
    | some st =>
      if st.deferred = 0 then s
      else
        let st₂ := { st with deferred := st.deferred - 1 }
        { s with origins := dequeueStep (mapSet s.origins o st₂) o st₂ }

/-- Run a whole microtask-level event sequence. -/
def runM (maxConcurrency : Nat) (s : QStateM) : List MEvent → QStateM
  | [] => s
  | e :: es => runM maxConcurrency (mStep maxConcurrency s e) es

theorem runM_append (maxConcurrency : Nat) (s : QStateM) (es₁ es₂ : List MEvent) :
    runM maxConcurrency s (es₁ ++ es₂)
      = runM maxConcurrency (runM maxConcurrency s es₁) es₂ := by
  induction es₁ generalizing s with
  | nil => rfl
  | cons e es ih => exact ih (mStep maxConcurrency s e)

/-- C1: the code violates the per-origin bound. Under limit 1, tasks
1, 2, 3 are enqueued (1 runs; 2 and 3 pend); task 1 completes and
promotes task 2; task 2 — a promoted task — completes, which decrements
`active` and only defers the next `dequeue` via `queueMicrotask`; a
caller continuation running in that window enqueues task 4 and is
admitted immediately (active count 0 < 1); the deferred `dequeue` then
promotes task 3 without re-checking the limit. The origin ends with two
simultaneously running tasks: an active count of 2 under limit 1. -/
theorem originQueue_limit_exceeded_bug :
    mapGet (runM 1 mInit
        [.enqueue ("o") 1, .enqueue ("o") 2, .enqueue ("o") 3,
         .completeRun ("o") 1 true, .completeDeq ("o") 2 true,
         .enqueue ("o") 4, .runDeferred ("o")]).origins ("o")
      = some ⟨[], [(4, false), (3, true)], 0⟩
    ∧ 1 < ([(4, false), (3, true)] : List (Nat × Bool)).length :=
  ⟨by decide, by decide⟩

/-- C5, counterexample: in the same settlement window — after promoted
task 2 has settled, decrementing `active` and deferring its `dequeue` —
task 4 is enqueued and admitted immediately while task 3, enqueued two
events earlier, is still pending: task 4 runs before task 3, so tasks do
not universally run in strict enqueue (FIFO) order. -/
theorem originQueue_fifo_cex :
    mapGet (runM 1 mInit
        [.enqueue ("o") 1, .enqueue ("o") 2, .enqueue ("o") 3,
         .completeRun ("o") 1 true, .completeDeq ("o") 2 true,
         .enqueue ("o") 4]).origins ("o")
      = some ⟨[3], [(4, false)], 1⟩
    ∧ (4, false) ∈ ([(4, false)] : List (Nat × Bool))
    ∧ (3 : Nat) ∈ ([3] : List Nat) :=
  ⟨by decide, by decide, by decide⟩

/-! FIFO order for the three-task scenario without interleaved enqueues. -/

/-- Running ids then pending ids of an origin lookup result. -/
def originTailM : Option OriginStateM → List Nat
  | some st => st.active.map Prod.fst ++ st.pending
  | none => []

/-- Settled ids, then running ids, then pending ids of the given origin. -/
def fifoSchedM (o : String) (s : QStateM) : List Nat :=
  s.settled.map Prod.fst ++ originTailM (mapGet s.origins o)

/-- Invariant for the three-task scenario without enqueues: the schedule
stays [1, 2, 3], and the origin, while present, has at most one running
task or one outstanding deferred dequeue in total. -/
def FifoInvM (o : String) (s : QStateM) : Prop :=
  fifoSchedM o s = [1, 2, 3]
    ∧ (s.origins = [] ∨ ∃ st, s.origins = [(o, st)]
        ∧ st.active.length + st.deferred ≤ 1)

theorem eq_singleton_of_mem_of_length_le_one {α : Type} {l : List α} {x : α}
    (hmem : x ∈ l) (hlen : l.length ≤ 1) : l = [x] := by
  cases l with
  | nil => cases hmem
  | cons y ys =>
    cases ys with
    | nil =>
      cases List.mem_cons.mp hmem with
      | inl h => simp [h.symm]
      | inr h => cases h
    | cons z zs => simp at hlen

theorem fifoInvM_step (o : String) (s : QStateM) (e : MEvent)
    (he : e.isEnqueue = false) (hinv : FifoInvM o s) : FifoInvM o (mStep 1 s e) := by
  obtain ⟨hs, hor⟩ := hinv
  cases e with
  | enqueue o₂ t => simp [MEvent.isEnqueue] at he
  | completeRun o₂ t ok =>
    cases hor with
    | inl hempty =>
      have hq : mStep 1 s (.completeRun o₂ t ok) = s := by
        simp [mStep, hempty, mapGet]
      rw [hq]
      exact ⟨hs, Or.inl hempty⟩
    | inr hex =>
      obtain ⟨st, horig, hbal⟩ := hex
      by_cases ho : o = o₂
      · subst ho
        have hfind : mapGet s.origins o = some st := by simp [horig, mapGet]
        by_cases hmem : (t, false) ∈ st.active
        · have hact : st.active = [(t, false)] :=
            eq_singleton_of_mem_of_length_le_one hmem (by omega)
          have hdef : st.deferred = 0 := by
            rw [hact] at hbal
            simpa using hbal
          have hrem : removePair st.active (t, false) = [] := by
            simp [hact, removePair]
          cases hpend : st.pending with
          | nil =>
            have hq : mStep 1 s (.completeRun o t ok)
                = ⟨[], s.settled ++ [(t, ok)]⟩ := by
              simp [mStep, hfind, hmem, dequeueStep, hrem, hpend, horig, mapGet,
                mapSet, eraseKey]
            rw [hq]
            refine ⟨?_, Or.inl rfl⟩
            have hs₂ : List.map Prod.fst s.settled ++ [t] = [1, 2, 3] := by
              unfold fifoSchedM at hs
              rw [hfind] at hs
              simpa [originTailM, hact, hpend] using hs
            simpa [fifoSchedM, mapGet, originTailM] using hs₂
          | cons h₂ rest =>
            have hq : mStep 1 s (.completeRun o t ok)
                = ⟨[(o, ⟨rest, [(h₂, true)], 0⟩)], s.settled ++ [(t, ok)]⟩ := by
              simp [mStep, hfind, hmem, dequeueStep, hrem, hpend, hdef, horig,
                mapGet, mapSet, eraseKey]
            rw [hq]
            refine ⟨?_, Or.inr ⟨⟨rest, [(h₂, true)], 0⟩, rfl, by simp⟩⟩
            have hs₂ : List.map Prod.fst s.settled ++ t :: h₂ :: rest = [1, 2, 3] := by
              unfold fifoSchedM at hs
              rw [hfind] at hs
              simpa [originTailM, hact, hpend] using hs
            simpa [fifoSchedM, mapGet, originTailM] using hs₂
        · have hq : mStep 1 s (.completeRun o t ok) = s := by
            simp [mStep, hfind, hmem]
          rw [hq]
          exact ⟨hs, Or.inr ⟨st, horig, hbal⟩⟩
      · have hq : mStep 1 s (.completeRun o₂ t ok) = s := by
          have hnone : mapGet s.origins o₂ = none := by
            simp [horig, mapGet, ho]
          simp [mStep, hnone]
        rw [hq]
        exact ⟨hs, Or.inr ⟨st, horig, hbal⟩⟩
  | completeDeq o₂ t ok =>
    cases hor with
    | inl hempty =>
      have hq : mStep 1 s (.completeDeq o₂ t ok) = s := by
        simp [mStep, hempty, mapGet]
      rw [hq]
      exact ⟨hs, Or.inl hempty⟩
    | inr hex =>
      obtain ⟨st, horig, hbal⟩ := hex
      by_cases ho : o = o₂
      · subst ho
        have hfind : mapGet s.origins o = some st := by simp [horig, mapGet]
        by_cases hmem : (t, true) ∈ st.active
        · have hact : st.active = [(t, true)] :=
            eq_singleton_of_mem_of_length_le_one hmem (by omega)
          have hdef : st.deferred = 0 := by
            rw [hact] at hbal
            simpa using hbal
          have hrem : removePair st.active (t, true) = [] := by
            simp [hact, removePair]
          have hq : mStep 1 s (.completeDeq o t ok)
              = ⟨[(o, ⟨st.pending, [], 1⟩)], s.settled ++ [(t, ok)]⟩ := by
            simp [mStep, hfind, hmem, hrem, hdef, horig, mapGet, mapSet, eraseKey]
          rw [hq]
          refine ⟨?_, Or.inr ⟨⟨st.pending, [], 1⟩, rfl, by simp⟩⟩
          have hs₂ : List.map Prod.fst s.settled ++ t :: st.pending = [1, 2, 3] := by
            unfold fifoSchedM at hs
            rw [hfind] at hs
            simpa [originTailM, hact] using hs
          simpa [fifoSchedM, mapGet, originTailM] using hs₂
        · have hq : mStep 1 s (.completeDeq o t ok) = s := by
            simp [mStep, hfind, hmem]
          rw [hq]
          exact ⟨hs, Or.inr ⟨st, horig, hbal⟩⟩
      · have hq : mStep 1 s (.completeDeq o₂ t ok) = s := by
          have hnone : mapGet s.origins o₂ = none := by
            simp [horig, mapGet, ho]
          simp [mStep, hnone]
        rw [hq]
        exact ⟨hs, Or.inr ⟨st, horig, hbal⟩⟩
  | runDeferred o₂ =>
    cases hor with
    | inl hempty =>
      have hq : mStep 1 s (.runDeferred o₂) = s := by
        simp [mStep, hempty, mapGet]
      rw [hq]
      exact ⟨hs, Or.inl hempty⟩
    | inr hex =>
      obtain ⟨st, horig, hbal⟩ := hex
      by_cases ho : o = o₂
      · subst ho
        have hfind : mapGet s.origins o = some st := by simp [horig, mapGet]
        by_cases hdz : st.deferred = 0
        · have hq : mStep 1 s (.runDeferred o) = s := by
            simp [mStep, hfind, hdz]
          rw [hq]
          exact ⟨hs, Or.inr ⟨st, horig, hbal⟩⟩
        · have hact : st.active = [] := by
            have : st.active.length = 0 := by omega
            exact List.eq_nil_of_length_eq_zero this
          have hdef : st.deferred = 1 := by omega
          cases hpend : st.pending with
          | nil =>
            have hq : mStep 1 s (.runDeferred o) = ⟨[], s.settled⟩ := by
              simp [mStep, hfind, hdz, dequeueStep, hpend, hact, horig, mapGet,
                mapSet, eraseKey]
            rw [hq]
            refine ⟨?_, Or.inl rfl⟩
            have hs₂ : List.map Prod.fst s.settled = [1, 2, 3] := by
              unfold fifoSchedM at hs
              rw [hfind] at hs
              simpa [originTailM, hact, hpend] using hs
            simpa [fifoSchedM, mapGet, originTailM] using hs₂
          | cons h₂ rest =>
            have hq : mStep 1 s (.runDeferred o)
                = ⟨[(o, ⟨rest, [(h₂, true)], 0⟩)], s.settled⟩ := by
              simp [mStep, hfind, hdz, dequeueStep, hpend, hact, hdef, horig,
                mapGet, mapSet, eraseKey]
            rw [hq]
            refine ⟨?_, Or.inr ⟨⟨rest, [(h₂, true)], 0⟩, rfl, by simp⟩⟩
            have hs₂ : List.map Prod.fst s.settled ++ h₂ :: rest = [1, 2, 3] := by
              unfold fifoSchedM at hs
              rw [hfind] at hs
              simpa [originTailM, hact, hpend] using hs
            simpa [fifoSchedM, mapGet, originTailM] using hs₂
      · have hq : mStep 1 s (.runDeferred o₂) = s := by
          have hnone : mapGet s.origins o₂ = none := by
            simp [horig, mapGet, ho]
          simp [mStep, hnone]
        rw [hq]
        exact ⟨hs, Or.inr ⟨st, horig, hbal⟩⟩

theorem fifoInvM_runM (o : String) (cs : List MEvent)
    (hcs : ∀ e ∈ cs, e.isEnqueue = false) (s : QStateM) (hinv : FifoInvM o s) :
    FifoInvM o (runM 1 s cs) := by
  induction cs generalizing s with
  | nil => exact hinv
  | cons e es ih =>
    exact ih (fun e₂ he₂ => hcs e₂ (List.mem_cons_of_mem e he₂)) _
      (fifoInvM_step o s e (hcs e (List.mem_cons_self e es)) hinv)

/-- C5, amended: tasks are promoted from the pending queue strictly in
FIFO (head-first) order; with no enqueue interleaved into a promoted
task's settlement window — the counterexample shows such an enqueue is
admitted ahead of earlier pending tasks — the three tasks 1, 2, 3
enqueued in that order under limit 1 settle in exactly that order: over
any further sequence of settlement and deferred-dequeue events the
settled ids form a prefix of [1, 2, 3], equal to [1, 2, 3] once the
origin has drained. -/
theorem originQueue_fifo_amended (cs : List MEvent)
    (hcs : ∀ e ∈ cs, e.isEnqueue = false) :
    ((runM 1 mInit ([.enqueue ("o") 1, .enqueue ("o") 2, .enqueue ("o") 3]
        ++ cs)).settled.map Prod.fst) <+: [1, 2, 3]
    ∧ ((runM 1 mInit ([.enqueue ("o") 1, .enqueue ("o") 2, .enqueue ("o") 3]
          ++ cs)).origins = []
        → (runM 1 mInit ([.enqueue ("o") 1, .enqueue ("o") 2, .enqueue ("o") 3]
            ++ cs)).settled.map Prod.fst = [1, 2, 3]) := by
  rw [runM_append]
  have h₀ : FifoInvM ("o")
      (runM 1 mInit [.enqueue ("o") 1, .enqueue ("o") 2, .enqueue ("o") 3]) := by
    refine ⟨by decide, Or.inr ⟨⟨[2, 3], [(1, false)], 0⟩, by decide, by decide⟩⟩
  obtain ⟨hs, hor⟩ := fifoInvM_runM ("o") cs hcs _ h₀
  unfold fifoSchedM at hs
  refine ⟨⟨_, hs⟩, fun hempty => ?_⟩
  rw [hempty] at hs
  simpa [mapGet, originTailM] using hs

/-- Witness for the amended C5 at a concrete drain sequence. -/
theorem originQueue_fifo_amended_witness :
    ((runM 1 mInit ([.enqueue ("o") 1, .enqueue ("o") 2, .enqueue ("o") 3]
        ++ [.completeRun ("o") 1 true, .completeDeq ("o") 2 true, .runDeferred ("o"),
            .completeDeq ("o") 3 false, .runDeferred ("o")])).settled.map Prod.fst)
      <+: [1, 2, 3]
    ∧ ((runM 1 mInit ([.enqueue ("o") 1, .enqueue ("o") 2, .enqueue ("o") 3]
          ++ [.completeRun ("o") 1 true, .completeDeq ("o") 2 true, .runDeferred ("o"),
              .completeDeq ("o") 3 false, .runDeferred ("o")])).origins = []
        → (runM 1 mInit ([.enqueue ("o") 1, .enqueue ("o") 2, .enqueue ("o") 3]
            ++ [.completeRun ("o") 1 true, .completeDeq ("o") 2 true, .runDeferred ("o"),
                .completeDeq ("o") 3 false, .runDeferred ("o")])).settled.map Prod.fst
          = [1, 2, 3]) :=
  originQueue_fifo_amended
    [.completeRun ("o") 1 true, .completeDeq ("o") 2 true, .runDeferred ("o"),
     .completeDeq ("o") 3 false, .runDeferred ("o")] (by decide)

/-! ## Fetch-pool adapter: deduplicating scrape front end

Embedding of `FetchPoolScraperAdapter.scrape`
(src/adapters/fetch-pool/fetch-pool.adapter.ts). The body of `scrape`
up to its first `await` runs as one uninterrupted event-loop segment:
tracker check, fresh-cache check, abort check, stale lookup, origin
enqueue and tracker install all happen atomically. `scrapeStep` is that
segment; `settleStep` is the `finally` that deletes the tracker once the
shared promise settles. -/

/-- Adapter state: the `pendingRequests` tracker map (url to promise id
and `startedAt`), the cache entries, a log of the fetch tasks handed to
the origin queue (each such task performs exactly one transport call in
`executeFetch`), and the next fresh promise id. -/
structure AdapterState (T : Type) where
  pendingReqs : List (String × Nat × Nat)
  cache : List (String × CacheEntry T)
  transportTasks : List String
  nextId : Nat
deriving Repr, DecidableEq

/-- What one scrape call returns from its synchronous segment: attach to
an existing tracker promise, resolve from fresh cache (`cached: true`),
reject with the Scrape-aborted error, or start a new fetch task. -/
inductive ScrapeStart (T : Type) where
  | attach (pid : Nat)
  | cachedHit (data : T)
  | abortedErr
  | started (pid : Nat) (stale : Option (CacheEntry T))
deriving Repr, DecidableEq

/-- The synchronous head of `FetchPoolScraperAdapter.scrape`, in source
order: pending tracker, fresh cache (bumping), abort check, stale
lookup, then enqueue plus tracker install. -/
def scrapeStep {T : Type} (ttl now : Nat) (s : AdapterState T) (url : String)
    (useCache aborted : Bool) : ScrapeStart T × AdapterState T :=
  match mapGet s.pendingReqs url with
  | some (pid, _) => (.attach pid, s)
  | none =>
    let look₁ := if useCache then lruLookup ttl now s.cache url
                 else ⟨none, none, s.cache⟩
    match look₁.fresh with
    | some e => (.cachedHit e.data, { s with cache := look₁.entries })
    | none =>
      if aborted then (.abortedErr, { s with cache := look₁.entries })
      else
        let look₂ := if useCache then lruLookup ttl now look₁.entries url
                     else ⟨none, none, look₁.entries⟩
        (.started s.nextId look₂.stale,
          { pendingReqs := s.pendingReqs ++ [(url, s.nextId, now)],
            cache := look₂.entries,
            transportTasks := s.transportTasks ++ [url],
            nextId := s.nextId + 1 })

/-- The `finally` of `scrape`: the tracker is deleted when the shared
outcome settles. -/
def settleStep {T : Type} (s : AdapterState T) (url : String) : AdapterState T :=
  { s with pendingReqs := eraseKey s.pendingReqs url }

/-- Run several scrape-call heads back to back (N concurrent callers
whose synchronous segments interleave whole). -/
def runScrapes {T : Type} (ttl now : Nat) (s : AdapterState T) :
    List (String × Bool × Bool) → AdapterState T × List (ScrapeStart T)
  | [] => (s, [])
  | (url, uc, ab) :: rest =>
    let step := scrapeStep ttl now s url uc ab
    let tail := runScrapes ttl now step.2 rest
    (tail.1, step.1 :: tail.2)

theorem lruLookup_absent {T : Type} (ttl now : Nat)
    (entries : List (String × CacheEntry T)) (key : String)
    (h : mapGet entries key = none) :
    lruLookup ttl now entries key = ⟨none, none, entries⟩ := by
  simp [lruLookup, h]

theorem scrapeStep_attach {T : Type} (ttl now : Nat) (s : AdapterState T)
    (url : String) (uc ab : Bool) (pid t₀ : Nat)
    (h : mapGet s.pendingReqs url = some (pid, t₀)) :
    scrapeStep ttl now s url uc ab = (.attach pid, s) := by
  simp [scrapeStep, h]

theorem scrapeStep_fresh_start {T : Type} (ttl now : Nat) (s : AdapterState T)
    (url : String) (uc : Bool)
    (htr : mapGet s.pendingReqs url = none)
    (hc : mapGet s.cache url = none) :
    scrapeStep ttl now s url uc false
      = (.started s.nextId none,
          ⟨s.pendingReqs ++ [(url, s.nextId, now)], s.cache,
            s.transportTasks ++ [url], s.nextId + 1⟩) := by
  have habs := lruLookup_absent ttl now s.cache url hc
  cases uc <;> simp [scrapeStep, htr, habs]

theorem runScrapes_attach {T : Type} (ttl now : Nat) (s : AdapterState T)
    (url : String) (uc ab : Bool) (m : Nat) (pid t₀ : Nat)
    (h : mapGet s.pendingReqs url = some (pid, t₀)) :
    runScrapes ttl now s (List.replicate m (url, uc, ab))
      = (s, List.replicate m (.attach pid)) := by
  induction m with
  | zero => rfl
  | succ m ih =>
    simp only [List.replicate_succ, runScrapes,
      scrapeStep_attach ttl now s url uc ab pid t₀ h, ih]

theorem eraseKey_append_single {α : Type} (m : List (String × α)) (k : String) (v : α)
    (h : mapGet m k = none) : eraseKey (m ++ [(k, v)]) k = m := by
  induction m with
  | nil => simp [eraseKey]
  | cons p rest ih =>
    obtain ⟨k₂, w⟩ := p
    by_cases hk : k₂ = k
    · simp [mapGet, hk] at h
    · simp only [mapGet, hk, if_false] at h
      simp only [List.cons_append, eraseKey, hk, if_false]
      exact congrArg (List.cons (k₂, w)) (ih h)

/-- C2: while no tracker and no cache entry exist for a url, the first of
N concurrent scrape calls starts the single fetch task and installs the
tracker, every later one attaches to the same tracker promise and creates
no further fetch task (the transport runs exactly once), and the tracker
is removed once the shared outcome settles. -/
theorem scrape_dedup {T : Type} (ttl now : Nat) (s₀ : AdapterState T)
    (url : String) (uc : Bool) (n : Nat)
    (htr : mapGet s₀.pendingReqs url = none)
    (hc : mapGet s₀.cache url = none)
    (hn : 1 ≤ n) :
    (runScrapes ttl now s₀ (List.replicate n (url, uc, false))).2
      = .started s₀.nextId none :: List.replicate (n - 1) (.attach s₀.nextId)
    ∧ (runScrapes ttl now s₀ (List.replicate n (url, uc, false))).1.transportTasks
      = s₀.transportTasks ++ [url]
    ∧ mapGet (settleStep
        (runScrapes ttl now s₀ (List.replicate n (url, uc, false))).1 url).pendingReqs url
      = none := by
  obtain ⟨m, rfl⟩ : ∃ m, n = m + 1 := ⟨n - 1, by omega⟩
  have hstep := scrapeStep_fresh_start ttl now s₀ url uc htr hc
  have htr₂ : mapGet (s₀.pendingReqs ++ [(url, s₀.nextId, now)]) url
      = some (s₀.nextId, now) := by
    rw [mapGet_append_of_none htr]
    simp [mapGet]
  have hrun := runScrapes_attach ttl now
    (⟨s₀.pendingReqs ++ [(url, s₀.nextId, now)], s₀.cache,
        s₀.transportTasks ++ [url], s₀.nextId + 1⟩ : AdapterState T)
    url uc false m s₀.nextId now htr₂
  simp only [List.replicate_succ, runScrapes, hstep, hrun, Nat.add_sub_cancel]
  refine ⟨trivial, trivial, ?_⟩
  simp only [settleStep]
  rw [eraseKey_append_single _ _ _ htr]
  exact htr

/-- Witness for C2 with three concurrent callers. -/
theorem scrape_dedup_witness :
    (runScrapes 10 0 (⟨[], [], [], 0⟩ : AdapterState Nat)
        (List.replicate 3 ("u", true, false))).2
      = .started 0 none :: List.replicate 2 (.attach 0)
    ∧ (runScrapes 10 0 (⟨[], [], [], 0⟩ : AdapterState Nat)
        (List.replicate 3 ("u", true, false))).1.transportTasks = [] ++ ["u"]
    ∧ mapGet (settleStep
        (runScrapes 10 0 (⟨[], [], [], 0⟩ : AdapterState Nat)
          (List.replicate 3 ("u", true, false))).1 ("u")).pendingReqs ("u") = none :=
  scrape_dedup 10 0 ⟨[], [], [], 0⟩ "u" true 3 rfl rfl (by decide)

/-- C10: a fresh cache hit is checked before the cancellation signal, so
a scrape with caching enabled whose signal is already aborted still
resolves from cache (`cached: true`) instead of rejecting, as long as no
in-flight tracker intercepts it first. -/
theorem scrape_aborted_cache_hit {T : Type} (ttl now : Nat) (s₀ : AdapterState T)
    (url : String) (e : CacheEntry T)
    (htr : mapGet s₀.pendingReqs url = none)
    (hfresh : (lruLookup ttl now s₀.cache url).fresh = some e) :
    (scrapeStep ttl now s₀ url true true).1 = .cachedHit e.data := by
  simp [scrapeStep, htr, hfresh]

/-- Witness for C10: entry stored at 0, ttl 10, aborted call at time 5. -/
theorem scrape_aborted_cache_hit_witness :
    (scrapeStep 10 5 (⟨[], [("u", { data := 42, timestamp := 0 })], [], 0⟩ : AdapterState Nat)
        "u" true true).1
      = .cachedHit 42 :=
  scrape_aborted_cache_hit 10 5 ⟨[], [("u", { data := 42, timestamp := 0 })], [], 0⟩
    "u" { data := 42, timestamp := 0 } rfl (by decide)

/-! ## executeFetch: response classification after the transport call

Embedding of `FetchPoolScraperAdapter.executeFetch` from the point where
the transport response is available. The transport collaborator is the
classified response record; header parsing delivers the etag,
last-modified and max-age values as fields. -/

/-- Transport response as the engine reads it. `maxAgeSeconds` is the
numeric max-age directive extracted from the cache-control header, when
one is present. -/
structure TResponse where
  status : Nat
  etag : Option String := none
  lastModified : Option String := none
  maxAgeSeconds : Option Nat := none
deriving Repr, DecidableEq

/-- The fetch API's `response.ok`: status in the 2xx range. -/
def TResponse.respOk (r : TResponse) : Bool := 200 ≤ r.status ∧ r.status ≤ 299

/-- Embeds `parseCacheControlMaxAge`: a positive max-age in seconds
scales to milliseconds, anything else gives no override. -/
def parseCacheControlMaxAge (r : TResponse) : Option Nat :=
  match r.maxAgeSeconds with
  | none => none
  | some secs => if secs > 0 then some (secs * 1000) else none

/-- The ScrapeResponse fields the claims observe. -/
structure FetchOut (T : Type) where
  result : T
  cached : Bool
deriving Repr, DecidableEq

/-- The non-304 tail of `executeFetch`: non-ok status throws `HTTP n`,
success returns the parsed result fresh and (when caching is on) stores
it with validators and the TTL override. -/
def executeFetchRest {T : Type} (maxSize now : Nat) (url : String)
    (resp : TResponse) (parsed : T) (useCache : Bool)
    (cache : List (String × CacheEntry T)) :
    Except String (FetchOut T × List (String × CacheEntry T)) :=
  if !resp.respOk then .error ("HTTP (" ++ toString resp.status)
  else
    let cache₂ :=
      if useCache then
        lruSet maxSize cache url
          ⟨parsed, now, resp.etag, resp.lastModified, parseCacheControlMaxAge resp⟩
      else cache
    .ok (⟨parsed, false⟩, cache₂)

/-- Embeds `executeFetch` from the transport response on: the 304 branch
with a stale entry short-circuits to the stale payload as cached. -/
def executeFetch {T : Type} (maxSize now : Nat) (url : String)
    (resp : TResponse) (parsed : T) (stale : Option (CacheEntry T))
    (useCache : Bool) (cache : List (String × CacheEntry T)) :
    Except String (FetchOut T × List (String × CacheEntry T)) :=
  match stale with
  | some e =>
    if resp.status = 304 then .ok (⟨e.data, true⟩, cache)
    else executeFetchRest maxSize now url resp parsed useCache cache
  | none => executeFetchRest maxSize now url resp parsed useCache cache

/-- C7: a not-modified transport status with a stale entry present makes
the engine resolve with the stale payload marked `cached: true` and
perform no cache insert: the cache (with the original entry and its
validator) comes back unchanged. -/
theorem executeFetch_not_modified {T : Type} (maxSize now : Nat) (url : String)
    (resp : TResponse) (parsed : T) (e : CacheEntry T) (useCache : Bool)
    (cache : List (String × CacheEntry T))
    (h304 : resp.status = 304) :
    executeFetch maxSize now url resp parsed (some e) useCache cache
      = .ok (⟨e.data, true⟩, cache) := by
  simp [executeFetch, h304]

/-- Witness for C7 at a concrete response and stale entry. -/
theorem executeFetch_not_modified_witness :
    executeFetch 500 9 ("u") ⟨304, some ("v1"), none, none⟩ (7 : Nat)
        (some { data := 3, timestamp := 0, etag := some ("v1") }) true
        [("u", { data := 3, timestamp := 0, etag := some ("v1") })]
      = .ok (⟨3, true⟩, [("u", { data := 3, timestamp := 0, etag := some ("v1") })]) :=
  executeFetch_not_modified 500 9 ("u") ⟨304, some ("v1"), none, none⟩ 7
    { data := 3, timestamp := 0, etag := some ("v1") } true
    [("u", { data := 3, timestamp := 0, etag := some ("v1") })] rfl

/-! ## Retrying batch driver

Embedding of `FetchPoolScraperAdapter.scrapeWithRetry` and `scrapeMany`.
`attempt k` is the settlement of the k-th `this.scrape` call for the url,
`aborted k` the signal state at the top-of-loop check before attempt k,
and `jitter n` the `Math.random() * 100` draw added to the backoff sleep
before retry attempt n. Sleeps are rational milliseconds. -/

/-- How one scrapeWithRetry run ends for its url. -/
inductive RetryOutcome (E R : Type) where
  | success (r : R)
  | failed (e : E)
  | skipped
deriving Repr, DecidableEq

/-- Observable trace of one scrapeWithRetry run: the outcome, how many
times the attempt function ran, and the backoff sleeps in order. -/
structure RetryTrace (E R : Type) where
  outcome : RetryOutcome E R
  attempts : Nat
  sleeps : List ℚ
deriving Repr, DecidableEq

/-- Leaving the retry loop: `lastError` set means a terminal failure is
recorded; `lastError` still null means the url is skipped. -/
def exitTrace {E R : Type} (lastError : Option E) (atts : Nat) (sleeps : List ℚ) :
    RetryTrace E R :=
  match lastError with
  | some e => ⟨.failed e, atts, sleeps⟩
  | none => ⟨.skipped, atts, sleeps⟩

/-- The loop of `scrapeWithRetry`: `k` is the attempt index, `remaining`
how many loop iterations are left (`retries + 1` at entry). Each
iteration checks the signal, runs the attempt, and on failure sleeps
`retryDelay * (k + 1) + jitter (k + 1)` when further retries remain. -/
def retryGo {E R : Type} (attempt : Nat → Except E R) (aborted : Nat → Bool)
    (retryDelay : ℚ) (jitter : Nat → ℚ) :
    Nat → Nat → Option E → Nat → List ℚ → RetryTrace E R
  | 0, _, lastError, atts, sleeps => exitTrace lastError atts sleeps
  | remaining + 1, k, lastError, atts, sleeps =>
    if aborted k then exitTrace lastError atts sleeps
    else
      match attempt k with
      | .ok r => ⟨.success r, atts + 1, sleeps⟩
      | .error e =>
        if remaining = 0 then ⟨.failed e, atts + 1, sleeps⟩
        else
          retryGo attempt aborted retryDelay jitter remaining (k + 1) (some e)
            (atts + 1) (sleeps ++ [retryDelay * ((k : ℚ) + 1) + jitter (k + 1)])

/-- Embeds `scrapeWithRetry`: up to `retries + 1` attempts starting with
no recorded error. -/
def scrapeWithRetry {E R : Type} (attempt : Nat → Except E R) (aborted : Nat → Bool)
    (retryDelay : ℚ) (jitter : Nat → ℚ) (retries : Nat) : RetryTrace E R :=
  retryGo attempt aborted retryDelay jitter (retries + 1) 0 none 0 []

/-- The `results` and `failed` maps a batch accumulates. -/
structure BatchRes (E R : Type) where
  results : List (String × R)
  failed : List (String × E)
deriving Repr, DecidableEq

/-- What one finished scrapeWithRetry writes into the batch maps:
`results.set` on success, `failed.set` on terminal failure, nothing when
skipped. -/
def applyOutcome {E R : Type} (trace : String → RetryTrace E R) (b : BatchRes E R)
    (url : String) : BatchRes E R :=
  match (trace url).outcome with
  | .success r => { b with results := mapSet b.results url r }
  | .failed e => { b with failed := mapSet b.failed url e }
  | .skipped => b

/-- Embeds `scrapeMany`: Promise.allSettled over one scrapeWithRetry per
url, each writing its own entry; the join is non-short-circuiting, so the
fold visits every url. -/
def scrapeMany {E R : Type} (urls : List String) (trace : String → RetryTrace E R) :
    BatchRes E R :=
  urls.foldl (applyOutcome trace) ⟨[], []⟩

/-- The entry a trace contributes to `results`. -/
def expectedRes {E R : Type} (t : RetryTrace E R) : Option R :=
  match t.outcome with
  | .success r => some r
  | _ => none

/-- The entry a trace contributes to `failed`. -/
def expectedFail {E R : Type} (t : RetryTrace E R) : Option E :=
  match t.outcome with
  | .failed e => some e
  | _ => none

/-- Conditional map write: insert when the per-url value exists. -/
def upsertIf {α : Type} (f : String → Option α) (m : List (String × α))
    (u : String) : List (String × α) :=
  match f u with
  | some v => mapSet m u v
  | none => m

theorem upsertIf_nodup {α : Type} (f : String → Option α) (m : List (String × α))
    (u : String) (hm : (m.map Prod.fst).Nodup) :
    ((upsertIf f m u).map Prod.fst).Nodup := by
  cases hf : f u with
  | some v => simpa [upsertIf, hf] using keys_mapSet_nodup v hm
  | none => simpa [upsertIf, hf] using hm

theorem foldl_upsertIf_nodup {α : Type} (f : String → Option α) (urls : List String)
    (m : List (String × α)) (hm : (m.map Prod.fst).Nodup) :
    (((urls.foldl (upsertIf f) m)).map Prod.fst).Nodup := by
  induction urls generalizing m with
  | nil => exact hm
  | cons x xs ih => exact ih _ (upsertIf_nodup f m x hm)

theorem foldl_upsertIf_get {α : Type} (f : String → Option α) (urls : List String)
    (m : List (String × α)) (hm : (m.map Prod.fst).Nodup) (u : String) :
    mapGet (urls.foldl (upsertIf f) m) u
      = if u ∈ urls ∧ (f u).isSome then f u else mapGet m u := by
  induction urls generalizing m with
  | nil => simp
  | cons x xs ih =>
    rw [List.foldl_cons, ih _ (upsertIf_nodup f m x hm)]
    by_cases h₁ : u ∈ xs ∧ (f u).isSome
    · rw [if_pos h₁, if_pos ⟨List.mem_cons_of_mem x h₁.1, h₁.2⟩]
    · rw [if_neg h₁]
      by_cases hux : u = x
      · subst hux
        cases hf : f u with
        | some v =>
          rw [if_pos ⟨List.mem_cons_self u xs, by simp⟩]
          simp [upsertIf, hf, mapGet_mapSet_self m u v hm]
        | none =>
          rw [if_neg (by simp)]
          simp [upsertIf, hf]
      · have hcond : ¬ (u ∈ x :: xs ∧ (f u).isSome) := by
          rintro ⟨hmem, hsome⟩
          cases List.mem_cons.mp hmem with
          | inl h => exact hux h
          | inr h => exact h₁ ⟨h, hsome⟩
        rw [if_neg hcond]
        cases hf : f x with
        | some v => simp [upsertIf, hf, mapGet_mapSet_other m x u v hux]
        | none => simp [upsertIf, hf]

theorem foldl_applyOutcome_results {E R : Type} (trace : String → RetryTrace E R)
    (urls : List String) (b : BatchRes E R) :
    (urls.foldl (applyOutcome trace) b).results
      = urls.foldl (upsertIf (fun v => expectedRes (trace v))) b.results := by
  induction urls generalizing b with
  | nil => rfl
  | cons x xs ih =>
    rw [List.foldl_cons, List.foldl_cons, ih]
    have hx : (applyOutcome trace b x).results
        = upsertIf (fun v => expectedRes (trace v)) b.results x := by
      cases houtcome : (trace x).outcome <;>
        simp [applyOutcome, upsertIf, expectedRes, houtcome]
    rw [hx]

theorem foldl_applyOutcome_failed {E R : Type} (trace : String → RetryTrace E R)
    (urls : List String) (b : BatchRes E R) :
    (urls.foldl (applyOutcome trace) b).failed
      = urls.foldl (upsertIf (fun v => expectedFail (trace v))) b.failed := by
  induction urls generalizing b with
  | nil => rfl
  | cons x xs ih =>
    rw [List.foldl_cons, List.foldl_cons, ih]
    have hx : (applyOutcome trace b x).failed
        = upsertIf (fun v => expectedFail (trace v)) b.failed x := by
      cases houtcome : (trace x).outcome <;>
        simp [applyOutcome, upsertIf, expectedFail, houtcome]
    rw [hx]

theorem retryGo_allfail {E R : Type} (attempt : Nat → Except E R) (aborted : Nat → Bool)
    (retryDelay : ℚ) (jitter : Nat → ℚ) (errF : Nat → E)
    (hA : ∀ n, attempt n = .error (errF n)) (hab : ∀ n, aborted n = false) :
    ∀ (r k : Nat) (lastError : Option E) (atts : Nat) (sleeps : List ℚ),
      retryGo attempt aborted retryDelay jitter (r + 1) k lastError atts sleeps
        = ⟨.failed (errF (k + r)), atts + r + 1,
            sleeps ++ (List.range' (k + 1) r).map
              (fun n : Nat => retryDelay * (n : ℚ) + jitter n)⟩ := by
  intro r
  induction r with
  | zero =>
    intro k lastError atts sleeps
    simp [retryGo, hab k, hA k]
  | succ r ih =>
    intro k lastError atts sleeps
    have hne : ¬ (r + 1 = 0) := by omega
    rw [show retryGo attempt aborted retryDelay jitter (r + 1 + 1) k lastError atts sleeps
        = retryGo attempt aborted retryDelay jitter (r + 1) (k + 1) (some (errF k))
            (atts + 1)
            (sleeps ++ [retryDelay * ((k : ℚ) + 1) + jitter (k + 1)]) from by
      simp [retryGo, hab k, hA k, hne]]
    rw [ih (k + 1) (some (errF k)) (atts + 1)
      (sleeps ++ [retryDelay * ((k : ℚ) + 1) + jitter (k + 1)])]
    have h₁ : k + 1 + r = k + (r + 1) := by omega
    have h₂ : atts + 1 + r + 1 = atts + (r + 1) + 1 := by omega
    rw [h₁, h₂, List.range'_succ]
    simp

theorem retryGo_some_ne_skipped {E R : Type} (attempt : Nat → Except E R)
    (aborted : Nat → Bool) (retryDelay : ℚ) (jitter : Nat → ℚ) :
    ∀ (rem k : Nat) (e : E) (atts : Nat) (sleeps : List ℚ),
      (retryGo attempt aborted retryDelay jitter rem k (some e) atts sleeps).outcome
        ≠ RetryOutcome.skipped := by
  intro rem
  induction rem with
  | zero =>
    intro k e atts sleeps
    simp [retryGo, exitTrace]
  | succ rem ih =>
    intro k e atts sleeps
    by_cases hab : aborted k = true
    · simp [retryGo, hab, exitTrace]
    · cases hA : attempt k with
      | ok r => simp [retryGo, hab, hA]
      | error e₂ =>
        by_cases hrem : rem = 0
        · simp [retryGo, hab, hA, hrem]
        · have hgo : retryGo attempt aborted retryDelay jitter (rem + 1) k (some e)
              atts sleeps
              = retryGo attempt aborted retryDelay jitter rem (k + 1) (some e₂)
                  (atts + 1)
                  (sleeps ++ [retryDelay * ((k : ℚ) + 1) + jitter (k + 1)]) := by
            simp [retryGo, hab, hA, hrem]
          rw [hgo]
          exact ih (k + 1) e₂ (atts + 1) _

theorem scrapeWithRetry_skipped_iff {E R : Type} (attempt : Nat → Except E R)
    (aborted : Nat → Bool) (retryDelay : ℚ) (jitter : Nat → ℚ) (retries : Nat) :
    (scrapeWithRetry attempt aborted retryDelay jitter retries).outcome
        = RetryOutcome.skipped
      ↔ aborted 0 = true := by
  unfold scrapeWithRetry
  by_cases hab : aborted 0 = true
  · simp [retryGo, hab, exitTrace]
  · simp only [hab, iff_false]
    cases hA : attempt 0 with
    | ok r => simp [retryGo, hab, hA]
    | error e =>
      by_cases hret : retries = 0
      · simp [retryGo, hab, hA, hret]
      · have hgo : retryGo attempt aborted retryDelay jitter (retries + 1) 0 none 0 []
            = retryGo attempt aborted retryDelay jitter retries 1 (some e) 1
                ([] ++ [retryDelay * ((0 : ℚ) + 1) + jitter 1]) := by
          simp [retryGo, hab, hA, hret]
        rw [hgo]
        simpa using retryGo_some_ne_skipped attempt aborted retryDelay jitter retries 1 e 1
          ([] ++ [retryDelay * ((0 : ℚ) + 1) + jitter 1])

/-- C6: with an attempt function that always fails and no cancellation,
scrapeWithRetry runs the attempt exactly retries + 1 times, the batch
records exactly one entry for the url in `failed` and none in `results`,
and the sleep before retry attempt n (n = 1 .. retries) is exactly
`retryDelay * n + jitter n`, where `jitter n` models the
`Math.random() * 100` draw and is below 100 by hypothesis. -/
theorem scrapeWithRetry_exhaustion {E R : Type} (attempt : Nat → Except E R)
    (errF : Nat → E) (url : String) (retryDelay : ℚ) (jitter : Nat → ℚ)
    (retries : Nat)
    (hA : ∀ n, attempt n = .error (errF n))
    (hj : ∀ n, 0 ≤ jitter n ∧ jitter n < 100) :
    (scrapeWithRetry attempt (fun _ => false) retryDelay jitter retries).attempts
      = retries + 1
    ∧ (scrapeWithRetry attempt (fun _ => false) retryDelay jitter retries).outcome
      = .failed (errF retries)
    ∧ (scrapeWithRetry attempt (fun _ => false) retryDelay jitter retries).sleeps
      = (List.range' 1 retries).map (fun n : Nat => retryDelay * (n : ℚ) + jitter n)
    ∧ (∀ n : Nat, retryDelay * (n : ℚ) + jitter n < retryDelay * (n : ℚ) + 100)
    ∧ mapGet (scrapeMany [url] (fun _ =>
        scrapeWithRetry attempt (fun _ => false) retryDelay jitter retries)).failed url
      = some (errF retries)
    ∧ (scrapeMany [url] (fun _ =>
        scrapeWithRetry attempt (fun _ => false) retryDelay jitter retries)).results
      = [] := by
  have hgo := retryGo_allfail attempt (fun _ => false) retryDelay jitter errF hA
    (fun _ => rfl) retries 0 none 0 []
  unfold scrapeWithRetry
  rw [hgo]
  refine ⟨by simp, by simp, by simp, fun n => by have := (hj n).2; linarith, ?_, ?_⟩
  · simp [scrapeMany, applyOutcome, mapSet, eraseKey, mapGet]
  · simp [scrapeMany, applyOutcome]

/-- Witness for C6: one retry, constant failure, jitter 50. -/
theorem scrapeWithRetry_exhaustion_witness :
    (scrapeWithRetry (fun _ => (Except.error ("boom") : Except String Nat))
        (fun _ => false) 1000 (fun _ => 50) 1).attempts = 1 + 1
    ∧ mapGet (scrapeMany ["u"] (fun _ =>
        scrapeWithRetry (fun _ => (Except.error ("boom") : Except String Nat))
          (fun _ => false) 1000 (fun _ => 50) 1)).failed ("u")
      = some ("boom") :=
  ⟨(scrapeWithRetry_exhaustion (fun _ => Except.error ("boom")) (fun _ => "boom") "u"
      1000 (fun _ => 50) 1 (fun _ => rfl) (fun _ => by norm_num)).1,
   (scrapeWithRetry_exhaustion (fun _ => Except.error ("boom")) (fun _ => "boom") "u"
      1000 (fun _ => 50) 1 (fun _ => rfl) (fun _ => by norm_num)).2.2.2.2.1⟩

/-- C3: scrapeMany — a total function, as Promise.allSettled never
rejects — maps each input url by that url's own retry trace alone: the
url lands in `results` exactly on success, in `failed` exactly on
terminal failure, and in neither exactly when its signal was already
asserted before the first attempt; so every input url is in exactly one
map, or in neither only under prior cancellation, and one url's
permanent failure cannot remove or prevent another url's entry. -/
theorem scrapeMany_partition {E R : Type} (urls : List String)
    (attempt : String → Nat → Except E R) (abortedF : String → Nat → Bool)
    (retryDelay : ℚ) (jitter : Nat → ℚ) (retries : Nat) (u : String)
    (hu : u ∈ urls) :
    mapGet (scrapeMany urls (fun v =>
        scrapeWithRetry (attempt v) (abortedF v) retryDelay jitter retries)).results u
      = expectedRes (scrapeWithRetry (attempt u) (abortedF u) retryDelay jitter retries)
    ∧ mapGet (scrapeMany urls (fun v =>
        scrapeWithRetry (attempt v) (abortedF v) retryDelay jitter retries)).failed u
      = expectedFail (scrapeWithRetry (attempt u) (abortedF u) retryDelay jitter retries)
    ∧ (((expectedRes (scrapeWithRetry (attempt u) (abortedF u) retryDelay jitter
            retries)).isSome
          ∧ expectedFail (scrapeWithRetry (attempt u) (abortedF u) retryDelay jitter
              retries) = none)
       ∨ (expectedRes (scrapeWithRetry (attempt u) (abortedF u) retryDelay jitter
            retries) = none
          ∧ (expectedFail (scrapeWithRetry (attempt u) (abortedF u) retryDelay jitter
              retries)).isSome)
       ∨ (expectedRes (scrapeWithRetry (attempt u) (abortedF u) retryDelay jitter
            retries) = none
          ∧ expectedFail (scrapeWithRetry (attempt u) (abortedF u) retryDelay jitter
              retries) = none
          ∧ abortedF u 0 = true)) := by
  refine ⟨?_, ?_, ?_⟩
  · unfold scrapeMany
    rw [foldl_applyOutcome_results, foldl_upsertIf_get _ _ _ (by simp) u]
    by_cases hs : (expectedRes (scrapeWithRetry (attempt u) (abortedF u) retryDelay
        jitter retries)).isSome
    · rw [if_pos ⟨hu, hs⟩]
    · rw [if_neg (fun hc => hs hc.2)]
      cases hx : expectedRes (scrapeWithRetry (attempt u) (abortedF u) retryDelay
          jitter retries) with
      | some v => exact absurd (by simp [hx]) hs
      | none => rfl
  · unfold scrapeMany
    rw [foldl_applyOutcome_failed, foldl_upsertIf_get _ _ _ (by simp) u]
    by_cases hs : (expectedFail (scrapeWithRetry (attempt u) (abortedF u) retryDelay
        jitter retries)).isSome
    · rw [if_pos ⟨hu, hs⟩]
    · rw [if_neg (fun hc => hs hc.2)]
      cases hx : expectedFail (scrapeWithRetry (attempt u) (abortedF u) retryDelay
          jitter retries) with
      | some v => exact absurd (by simp [hx]) hs
      | none => rfl
  · cases houtcome : (scrapeWithRetry (attempt u) (abortedF u) retryDelay jitter
        retries).outcome with
    | success r =>
      exact Or.inl ⟨by simp [expectedRes, houtcome], by simp [expectedFail, houtcome]⟩
    | failed e =>
      exact Or.inr (Or.inl ⟨by simp [expectedRes, houtcome],
        by simp [expectedFail, houtcome]⟩)
    | skipped =>
      exact Or.inr (Or.inr ⟨by simp [expectedRes, houtcome],
        by simp [expectedFail, houtcome],
        (scrapeWithRetry_skipped_iff (attempt u) (abortedF u) retryDelay jitter
          retries).mp houtcome⟩)

/-- Witness for C3: one url succeeding on its first attempt. -/
theorem scrapeMany_partition_witness :
    mapGet (scrapeMany ["u"] (fun v =>
        scrapeWithRetry ((fun _ _ => Except.ok 5) v : Nat → Except String Nat)
          ((fun _ _ => false) v) 1000 (fun _ => 50) 2)).results ("u")
      = expectedRes (scrapeWithRetry (fun _ => (Except.ok 5 : Except String Nat))
          (fun _ => false) 1000 (fun _ => 50) 2)
    ∧ mapGet (scrapeMany ["u"] (fun v =>
        scrapeWithRetry ((fun _ _ => Except.ok 5) v : Nat → Except String Nat)
          ((fun _ _ => false) v) 1000 (fun _ => 50) 2)).failed ("u")
      = expectedFail (scrapeWithRetry (fun _ => (Except.ok 5 : Except String Nat))
          (fun _ => false) 1000 (fun _ => 50) 2)
    ∧ (((expectedRes (scrapeWithRetry (fun _ => (Except.ok 5 : Except String Nat))
            (fun _ => false) 1000 (fun _ => 50) 2)).isSome
          ∧ expectedFail (scrapeWithRetry (fun _ => (Except.ok 5 : Except String Nat))
              (fun _ => false) 1000 (fun _ => 50) 2) = none)
       ∨ (expectedRes (scrapeWithRetry (fun _ => (Except.ok 5 : Except String Nat))
            (fun _ => false) 1000 (fun _ => 50) 2) = none
          ∧ (expectedFail (scrapeWithRetry (fun _ => (Except.ok 5 : Except String Nat))
              (fun _ => false) 1000 (fun _ => 50) 2)).isSome)
       ∨ (expectedRes (scrapeWithRetry (fun _ => (Except.ok 5 : Except String Nat))
            (fun _ => false) 1000 (fun _ => 50) 2) = none
          ∧ expectedFail (scrapeWithRetry (fun _ => (Except.ok 5 : Except String Nat))
              (fun _ => false) 1000 (fun _ => 50) 2) = none
          ∧ (fun _ _ => false) "u" 0 = true)) :=
  scrapeMany_partition ["u"] (fun _ _ => Except.ok 5) (fun _ _ => false)
    1000 (fun _ => 50) 2 ("u") (List.mem_cons_self ("u") [])

/-- C8: a scrape whose cancellation signal is already asserted, not
served by an in-flight tracker or a fresh cache hit, rejects with the
Scrape-aborted error without creating a fetch task (zero transport
calls) or installing a tracker; and an already-cancelled retry loop runs
zero attempts and schedules zero backoff sleeps. -/
theorem scrape_aborted_rejects {T E R : Type} (ttl now : Nat) (s₀ : AdapterState T)
    (url : String) (uc : Bool) (attempt : Nat → Except E R)
    (retryDelay : ℚ) (jitter : Nat → ℚ) (retries : Nat)
    (htr : mapGet s₀.pendingReqs url = none)
    (hfresh : (lruLookup ttl now s₀.cache url).fresh = none) :
    (scrapeStep ttl now s₀ url uc true).1 = .abortedErr
    ∧ (scrapeStep ttl now s₀ url uc true).2.transportTasks = s₀.transportTasks
    ∧ (scrapeStep ttl now s₀ url uc true).2.pendingReqs = s₀.pendingReqs
    ∧ (scrapeWithRetry attempt (fun _ => true) retryDelay jitter retries).attempts = 0
    ∧ (scrapeWithRetry attempt (fun _ => true) retryDelay jitter retries).sleeps = []
    ∧ (scrapeWithRetry attempt (fun _ => true) retryDelay jitter retries).outcome
        = RetryOutcome.skipped := by
  refine ⟨?_, ?_, ?_, ?_, ?_, ?_⟩
  · cases uc <;> simp [scrapeStep, htr, hfresh]
  · cases uc <;> simp [scrapeStep, htr, hfresh]
  · cases uc <;> simp [scrapeStep, htr, hfresh]
  · simp [scrapeWithRetry, retryGo, exitTrace]
  · simp [scrapeWithRetry, retryGo, exitTrace]
  · simp [scrapeWithRetry, retryGo, exitTrace]

/-- Witness for C8: empty adapter state, aborted call. -/
theorem scrape_aborted_rejects_witness :
    (scrapeStep 10 0 (⟨[], [], [], 0⟩ : AdapterState Nat) "u" true true).1 = .abortedErr
    ∧ (scrapeStep 10 0 (⟨[], [], [], 0⟩ : AdapterState Nat) "u" true true).2.transportTasks
        = (⟨[], [], [], 0⟩ : AdapterState Nat).transportTasks
    ∧ (scrapeStep 10 0 (⟨[], [], [], 0⟩ : AdapterState Nat) "u" true true).2.pendingReqs
        = (⟨[], [], [], 0⟩ : AdapterState Nat).pendingReqs
    ∧ (scrapeWithRetry (fun _ => (Except.ok 7 : Except String Nat)) (fun _ => true)
        1000 (fun _ => 50) 2).attempts = 0
    ∧ (scrapeWithRetry (fun _ => (Except.ok 7 : Except String Nat)) (fun _ => true)
        1000 (fun _ => 50) 2).sleeps = []
    ∧ (scrapeWithRetry (fun _ => (Except.ok 7 : Except String Nat)) (fun _ => true)
        1000 (fun _ => 50) 2).outcome = RetryOutcome.skipped :=
  scrape_aborted_rejects 10 0 ⟨[], [], [], 0⟩ "u" true (fun _ => Except.ok 7)
    1000 (fun _ => 50) 2 rfl rfl

end OneCrawl
